import Mathlib

/-!
Shallow embedding of `src/music.py` (faizan-m/faiz), the procedural score
generator for "Sahar-e-Nau".

Modelling conventions:
* A music21 `pitch.Pitch` is its chromatic (MIDI-style) semitone number plus
  its microtone detuning in cents; a pitch constructed from a plain note-name
  string carries no detuning.  D4 = 62, D3 = 50, A3 = 57, G3 = 55, G#3 = 56,
  A2 = 45, G2 = 43, Bb2 = 46.
* Quarter lengths are exact rationals.  music21 normalises the tuplet floats
  `2/3.0` and `1/3.0` to the exact fractions 2/3 and 1/3 (`common.opFrac`),
  so the rational model matches the library's arithmetic.
* A music21 `stream.Part` is modelled as its instrument marker (metadata)
  plus its timed events, a list of (offset, event) pairs; `append` places an
  element at the running total of the durations appended before it, and
  `insert` into an already sorted stream is a sorted merge on offsets.
* The process-wide `random` module is modelled by oracles giving the realized
  draws: `generate_alaap` consumes one scale index (all seven weights are
  positive, so every index can be drawn) and one duration index per
  iteration, and `generate_synthesis_melody` one scale index per note.  The
  other generators never consult the random module and therefore take no
  oracle.
-/

namespace Faiz

/-- Instruments appearing in the score (music21 instrument classes). -/
inductive Instrument where
  | sitar
  | violoncello
  | electricGuitar
  | unpitchedPercussion
deriving DecidableEq, Repr

/-- A pitch: chromatic semitone number plus microtone detuning in cents. -/
structure Pitch where
  semis : ℤ
  microtone : ℤ
deriving DecidableEq, Repr

/-- The named intervals of the Yaman formula in `get_yaman_scale`. -/
inductive IntervalName where
  | M2 | M3 | A4 | P5 | M6 | M7
deriving DecidableEq, Repr

/-- Semitone width of each named interval. -/
def IntervalName.semitones : IntervalName → ℤ
  | .M2 => 2
  | .M3 => 4
  | .A4 => 6
  | .P5 => 7
  | .M6 => 9
  | .M7 => 11

/-- music21 `Pitch.transpose`: shift by the interval; detuning carried over. -/
def transpose (p : Pitch) (ivl : IntervalName) : Pitch :=
  { semis := p.semis + ivl.semitones, microtone := p.microtone }

/-- The interval list `['M2', 'M3', 'A4', 'P5', 'M6', 'M7']`. -/
def yamanIntervals : List IntervalName := [.M2, .M3, .A4, .P5, .M6, .M7]

/-- Embedding of `get_yaman_scale`: the tonic followed by the six transposed
pitches, with the augmented fourth (Tivra Ma) sharpened by 10 cents. -/
def get_yaman_scale (root : ℤ) : List Pitch :=
  let tonic : Pitch := { semis := root, microtone := 0 }
  tonic :: yamanIntervals.map (fun ivl =>
    let p := transpose tonic ivl
    if ivl = .A4 then { p with microtone := 10 } else p)

/-- A sounded event: the pitches struck together (one entry for a note,
several for a chord), its quarter length, the MIDI velocity when one is
assigned, and the tuplet marker when one is set. -/
structure MEvent where
  pitches : List ℤ
  qLen : ℚ
  velocity : Option ℕ
  tuplet : Option (ℕ × ℕ)
deriving DecidableEq, Repr

/-- A music21 `stream.Part`: instrument marker plus timed events. -/
structure MPart where
  id : Option String := none
  instrument : Instrument
  events : List (ℚ × MEvent)
deriving DecidableEq, Repr

/-- stream `append` semantics: each event lands at the running total of the
durations appended before it. -/
def withOffsets (cur : ℚ) : List MEvent → List (ℚ × MEvent)
  | [] => []
  | e :: rest => (cur, e) :: withOffsets (cur + e.qLen) rest

/-- Total quarter length of a list of timed events. -/
def sumDur (evs : List (ℚ × MEvent)) : ℚ := (evs.map (fun e => e.2.qLen)).sum

/-- The long-held low-velocity root of `create_sitar_drone` (D3, pp, 100 QL). -/
def drone_root : MEvent :=
  { pitches := [50], qLen := 100, velocity := some 30, tuplet := none }

/-- The long-held low-velocity fifth of `create_sitar_drone` (A3, pp, 100 QL). -/
def drone_fifth : MEvent :=
  { pitches := [57], qLen := 100, velocity := some 30, tuplet := none }

/-- Embedding of `create_sitar_drone`: both drone notes inserted at offset 0. -/
def create_sitar_drone : MPart :=
  { instrument := .sitar, events := [(0, drone_root), (0, drone_fifth)] }

/-- Embedding of the `i`-th clash chord of `generate_fracture_texture`:
G3 against G#3, chord quarter length 2.0, velocity `60 + i * 3`. -/
def fractureChord (i : ℕ) : MEvent :=
  { pitches := [55, 56], qLen := 2, velocity := some (60 + i * 3), tuplet := none }

/-- Embedding of `generate_fracture_texture`: sixteen appended clash chords. -/
def generate_fracture_texture : MPart :=
  { instrument := .violoncello,
    events := withOffsets 0 ((List.range 16).map fractureChord) }

/-- Embedding of `make_power_chord`: root plus perfect fifth. -/
def make_power_chord (root : ℤ) (dur : ℚ := 4) : MEvent :=
  { pitches := [root, root + 7], qLen := dur, velocity := none, tuplet := none }

/-- One four-bar pass of the riff progression: D power, A power, G power,
then the full G minor triad, each lasting a whole bar. -/
def riffBar : List MEvent :=
  [make_power_chord 50 4, make_power_chord 45 4, make_power_chord 43 4,
   { pitches := [43, 46, 50], qLen := 4, velocity := none, tuplet := none }]

/-- Embedding of `generate_rock_riff`: four appended passes of the bar. -/
def generate_rock_riff : MPart :=
  { instrument := .electricGuitar,
    events := withOffsets 0 (List.replicate 4 riffBar).flatten }

/-- The tabla strokes (bols) used by the keherwa pattern. -/
inductive Bol where
  | Dha | Ge | Na | Tin | Ka | Ke | Dhin
deriving DecidableEq, Repr

/-- Embedding of `tabla_map`: percussion MIDI values of each stroke. -/
def tabla_map : Bol → List ℕ
  | .Ge => [36]
  | .Na => [37]
  | .Tin => [45]
  | .Dha => [36, 37]
  | .Dhin => [36, 45]
  | .Ka => [44]
  | .Ke => [44]

/-- The swung long subdivision: two thirds of a beat. -/
def long_beat : ℚ := 2 / 3

/-- The swung short subdivision: one third of a beat. -/
def short_beat : ℚ := 1 / 3

/-- Embedding of `pattern_bols`, the literal (stroke, quarter length) list. -/
def pattern_bols : List (Bol × ℚ) :=
  [(.Dha, long_beat), (.Ge, short_beat),
   (.Na, long_beat), (.Tin, short_beat),
   (.Na, long_beat), (.Ka, short_beat),
   (.Dhin, long_beat), (.Na, short_beat)]

/-- One stroke of the cycle: the mapped percussion sounds (a chord when the
map yields several, a single note otherwise), the given quarter length, and
the explicit 3-against-2 tuplet marker set on every stroke. -/
def strokeEvent (b : Bol) (q : ℚ) : MEvent :=
  { pitches := (tabla_map b).map (fun v => (v : ℤ)), qLen := q,
    velocity := none, tuplet := some (3, 2) }

/-- A music21 `stream.Measure`: time signature plus timed events. -/
structure MMeasure where
  timeSig : ℕ × ℕ
  events : List (ℚ × MEvent)
deriving DecidableEq, Repr

/-- Embedding of `create_keherwa_cycle`: the eight strokes of the pattern
appended into one 4/4 measure. -/
def create_keherwa_cycle : MMeasure :=
  { timeSig := (4, 4),
    events := withOffsets 0 (pattern_bols.map (fun p => strokeEvent p.1 p.2)) }

/-- The `scale_names` list of `generate_alaap`: `nameWithOctave` keeps only
the note name, so the microtone of the D4 Yaman scale is dropped and the
seven chromatic steps remain. -/
def scale_names : List ℤ := (get_yaman_scale 62).map Pitch.semis

/-- Scale step drawn for a realized index of `random.choices(scale_names, ...)`. -/
def pitchOf (i : Fin 7) : ℤ := scale_names.get (Fin.cast (by rfl) i)

/-- The duration list `[0.5, 1.0, 1.5, 2.0]` of the rubato draw. -/
def durChoices : List ℚ := [1 / 2, 1, 3 / 2, 2]

/-- Duration drawn for a realized index of `random.choice([0.5, 1.0, 1.5, 2.0])`. -/
def durOf : Fin 4 → ℚ
  | 0 => 1 / 2
  | 1 => 1
  | 2 => 3 / 2
  | 3 => 2

/-- The `while current_offset < duration_quarters` loop of `generate_alaap`:
place the drawn note at the cursor and advance the cursor by the drawn
duration, stopping once the cursor reaches the target. -/
def alaapLoop (pick : ℕ → Fin 7 × Fin 4) (target : ℚ) (i : ℕ) (cur : ℚ) :
    List (ℚ × MEvent) :=
  if h : cur < target then
    (cur, { pitches := [pitchOf (pick i).1], qLen := durOf (pick i).2,
            velocity := none, tuplet := none })
      :: alaapLoop pick target (i + 1) (cur + durOf (pick i).2)
  else []
termination_by (⌈(target - cur) * 2⌉).toNat
decreasing_by
  have hd : (1 : ℚ) / 2 ≤ durOf (pick i).2 := by
    generalize (pick i).2 = j
    fin_cases j <;> norm_num [durOf]
  have h2 : (target - (cur + durOf (pick i).2)) * 2 ≤ (target - cur) * 2 - 1 := by
    linarith
  have h3 := Int.ceil_le_ceil h2
  have h4 : ⌈(target - cur) * 2 - (1 : ℚ)⌉ = ⌈(target - cur) * 2⌉ - 1 :=
    Int.ceil_sub_one _
  have h5 : 0 < ⌈(target - cur) * 2⌉ := Int.ceil_pos.mpr (by linarith)
  omega

/-- Embedding of `generate_alaap`: the loop starts at cursor 0 and the part
carries the sitar marker. -/
def generate_alaap (pick : ℕ → Fin 7 × Fin 4) (duration_quarters : ℚ := 32) : MPart :=
  { instrument := .sitar, events := alaapLoop pick duration_quarters 0 0 }

/-- Embedding of `generate_synthesis_melody`: sixty-four straight eighth
notes appended on the 4/4 grid, pitches drawn uniformly from the scale. -/
def generate_synthesis_melody (pickS : ℕ → Fin 7) : MPart :=
  { instrument := .sitar,
    events := withOffsets 0 ((List.range 64).map (fun k =>
      { pitches := [pitchOf (pickS k)], qLen := 1 / 2,
        velocity := none, tuplet := none })) }

/-- Timeline placement: shift every local offset by the placement offset,
as in `master.insert(placement + element.offset, element)`. -/
def place (off : ℚ) (evs : List (ℚ × MEvent)) : List (ℚ × MEvent) :=
  evs.map (fun p => (off + p.1, p.2))

/-- Sorted merge on offsets, ties resolved in favour of the earlier-inserted
fragment: inserting a second fragment into an already sorted stream yields
exactly this merge of the two offset-sorted event lists. -/
def mergeByOffset : List (ℚ × MEvent) → List (ℚ × MEvent) → List (ℚ × MEvent)
  | [], b => b
  | a, [] => a
  | x :: xs, y :: ys =>
    if x.1 ≤ y.1 then x :: mergeByOffset xs (y :: ys)
    else y :: mergeByOffset (x :: xs) ys
termination_by a b => a.length + b.length
decreasing_by all_goals simp +arith

/-- An element of a music21 stream as iteration yields it: either an
instrument marker or a measure.  Iterating a stream yields all of its
elements, instrument markers included. -/
inductive StreamElem where
  | instrumentMarker (ins : Instrument)
  | measureElem (m : MMeasure)
deriving DecidableEq, Repr

/-- The scratch `drums_part` of `build_sahar_e_nau`, as the list of its
elements in music21 iteration (sort) order: the UnpitchedPercussion
placeholder inserted at offset 0 sorts before the measure appended at the
same offset (Instrument.classSortOrder is -25, below a stream's), so the
placeholder comes first, followed by the sixteen deep-copied keherwa
measures appended at offsets 0, 4, ..., 60. -/
def drums_part_elements : List StreamElem :=
  .instrumentMarker .unpitchedPercussion ::
    List.replicate 16 (.measureElem create_keherwa_cycle)

/-- The drum insertion loop of `build_sahar_e_nau`
(`for measure in drums_part`): every iterated element is inserted at the
running offset, which starts at 64 and advances by 4 per element; an
instrument marker contributes no timed events to the voice but still
consumes its slot. -/
def drumLoop (off : ℚ) : List StreamElem → List (ℚ × MEvent)
  | [] => []
  | .instrumentMarker _ :: rest => drumLoop (off + 4) rest
  | .measureElem m :: rest => place off m.events ++ drumLoop (off + 4) rest

/-- The timed events of the master drum voice: the loop starts at 64, the
placeholder consumes that slot, so the measures land at 68, 72, ..., 128. -/
def master_drums_events : List (ℚ × MEvent) := drumLoop 64 drums_part_elements

/-- A music21 `stream.Score`: metadata, the global tempo markers (offset and
beats per minute — tempo lives on the score, not on any voice), and the
voice parts. -/
structure MScore where
  title : String
  composer : String
  tempos : List (ℚ × ℕ)
  parts : List MPart
deriving DecidableEq, Repr

/-- The precomputed synthesis entry offset: Mov I (32) + Mov II (32) +
Mov III (64). -/
def synthesis_start_offset : ℚ := 32 + 32 + 64

/-- Embedding of `build_sahar_e_nau`.  The sitar drone is generated exactly
as in the source and then never added to the score (the source's closing
comment: the drone is omitted).  The drum loop iterates every element of
the scratch drums part — the instrument placeholder first, then the
sixteen copied keherwa measures — so the placeholder consumes offset 64
and the measures land at 68, 72, ..., 128. -/
def build_sahar_e_nau (pickA : ℕ → Fin 7 × Fin 4) (pickS : ℕ → Fin 7) : MScore :=
  let sitar_alaap := generate_alaap pickA 32
  let _sitar_drone := create_sitar_drone
  let fracture := generate_fracture_texture
  let guitar_riff := generate_rock_riff
  let keherwa_bar := create_keherwa_cycle
  let sitar_synthesis := generate_synthesis_melody pickS
  let master_sitar : MPart :=
    { id := some "Sitar", instrument := .sitar,
      events := mergeByOffset (place 0 sitar_alaap.events)
        (place synthesis_start_offset sitar_synthesis.events) }
  let master_cello : MPart :=
    { id := some "Cello", instrument := .violoncello,
      events := place 32 fracture.events }
  let master_guitar : MPart :=
    { id := some "Guitar", instrument := .electricGuitar,
      events := place 64 guitar_riff.events }
  let _keherwa_copies := List.replicate 16 keherwa_bar
  let master_drums : MPart :=
    { id := some "Drums", instrument := .unpitchedPercussion,
      events := master_drums_events }
  { title := "Sahar-e-Nau: Symphony of the Awakening",
    composer := "Faiz Fusion Project",
    tempos := [(0, 72), (64, 108)],
    parts := [master_sitar, master_cello, master_guitar, master_drums] }

/-- Every timed event of the score, across all voices. -/
def scoreEvents (s : MScore) : List (ℚ × MEvent) :=
  (s.parts.map MPart.events).flatten

/-- Sums of the adjacent pairs of a list of quarter lengths. -/
def pairSums : List ℚ → List ℚ
  | a :: b :: rest => (a + b) :: pairSums rest
  | _ => []

/-- A concrete realized draw stream for the alaap oracle: always the third
scale step and the second duration. -/
def constPickA : ℕ → Fin 7 × Fin 4 := fun _ => (2, 1)

/-- A concrete realized draw stream for the synthesis oracle. -/
def constPickS : ℕ → Fin 7 := fun _ => 2

/-! Basic facts about the drawn durations and the alaap measure. -/

theorem half_le_durOf (j : Fin 4) : (1 : ℚ) / 2 ≤ durOf j := by
  fin_cases j <;> norm_num [durOf]

theorem durOf_le_two (j : Fin 4) : durOf j ≤ 2 := by
  fin_cases j <;> norm_num [durOf]

theorem durOf_mem_durChoices (j : Fin 4) : durOf j ∈ durChoices := by
  fin_cases j <;> simp [durOf, durChoices]

theorem alaap_measure_lt (target cur d : ℚ) (h : cur < target) (hd : 1 / 2 ≤ d) :
    (⌈(target - (cur + d)) * 2⌉).toNat < (⌈(target - cur) * 2⌉).toNat := by
  have h2 : (target - (cur + d)) * 2 ≤ (target - cur) * 2 - 1 := by linarith
  have h3 : ⌈(target - (cur + d)) * 2⌉ ≤ ⌈(target - cur) * 2 - 1⌉ := Int.ceil_le_ceil h2
  have h4 : ⌈(target - cur) * 2 - (1 : ℚ)⌉ = ⌈(target - cur) * 2⌉ - 1 :=
    Int.ceil_sub_one _
  have h5 : 0 < ⌈(target - cur) * 2⌉ := Int.ceil_pos.mpr (by linarith)
  omega

theorem alaapLoop_pos (pick : ℕ → Fin 7 × Fin 4) (target : ℚ) (i : ℕ) (cur : ℚ)
    (h : cur < target) :
    alaapLoop pick target i cur =
      (cur, { pitches := [pitchOf (pick i).1], qLen := durOf (pick i).2,
              velocity := none, tuplet := none })
        :: alaapLoop pick target (i + 1) (cur + durOf (pick i).2) := by
  rw [alaapLoop]
  simp [h]

theorem alaapLoop_neg (pick : ℕ → Fin 7 × Fin 4) (target : ℚ) (i : ℕ) (cur : ℚ)
    (h : ¬ cur < target) :
    alaapLoop pick target i cur = [] := by
  rw [alaapLoop]
  simp [h]

/-! Invariants of the alaap loop. -/

/-- The loop only stops once the cursor has reached the target, so the
durations it emits always carry the cursor to the target or beyond. -/
theorem alaapLoop_sum_ge (pick : ℕ → Fin 7 × Fin 4) (target : ℚ) (i : ℕ) (cur : ℚ) :
    target ≤ cur + sumDur (alaapLoop pick target i cur) := by
  by_cases h : cur < target
  · rw [alaapLoop_pos pick target i cur h]
    have ih := alaapLoop_sum_ge pick target (i + 1) (cur + durOf (pick i).2)
    simp only [sumDur, List.map_cons, List.sum_cons] at ih ⊢
    linarith
  · rw [alaapLoop_neg pick target i cur h]
    simp only [sumDur, List.map_nil, List.sum_nil, add_zero]
    linarith [not_lt.mp h]
termination_by (⌈(target - cur) * 2⌉).toNat
decreasing_by exact alaap_measure_lt target cur _ h (half_le_durOf _)

/-- The last note is drawn while the cursor is still short of the target
and is at most 2 long, so the cursor never reaches `target + 2`. -/
theorem alaapLoop_sum_lt (pick : ℕ → Fin 7 × Fin 4) (target : ℚ) (i : ℕ) (cur : ℚ)
    (h0 : cur < target + 2) :
    cur + sumDur (alaapLoop pick target i cur) < target + 2 := by
  by_cases h : cur < target
  · rw [alaapLoop_pos pick target i cur h]
    have hd := durOf_le_two (pick i).2
    have ih := alaapLoop_sum_lt pick target (i + 1) (cur + durOf (pick i).2)
      (by linarith)
    simp only [sumDur, List.map_cons, List.sum_cons] at ih ⊢
    linarith
  · rw [alaapLoop_neg pick target i cur h]
    simpa [sumDur] using h0
termination_by (⌈(target - cur) * 2⌉).toNat
decreasing_by exact alaap_measure_lt target cur _ h (half_le_durOf _)

/-- Every emitted duration is one of the four drawn values, unmodified. -/
theorem alaapLoop_qLen_mem (pick : ℕ → Fin 7 × Fin 4) (target : ℚ) (i : ℕ) (cur : ℚ) :
    ∀ e ∈ alaapLoop pick target i cur, e.2.qLen ∈ durChoices := by
  by_cases h : cur < target
  · rw [alaapLoop_pos pick target i cur h]
    intro e he
    rcases List.mem_cons.mp he with he | he
    · subst he
      exact durOf_mem_durChoices (pick i).2
    · exact alaapLoop_qLen_mem pick target (i + 1) (cur + durOf (pick i).2) e he
  · rw [alaapLoop_neg pick target i cur h]
    intro e he
    simp at he
termination_by (⌈(target - cur) * 2⌉).toNat
decreasing_by exact alaap_measure_lt target cur _ h (half_le_durOf _)

/-- Every iteration advances the cursor by at least half a quarter length,
so the loop runs at most `⌈(target - cur) * 2⌉` times. -/
theorem alaapLoop_length_le (pick : ℕ → Fin 7 × Fin 4) (target : ℚ) (i : ℕ) (cur : ℚ) :
    (alaapLoop pick target i cur).length ≤ (⌈(target - cur) * 2⌉).toNat := by
  by_cases h : cur < target
  · rw [alaapLoop_pos pick target i cur h]
    have hm := alaap_measure_lt target cur (durOf (pick i).2) h (half_le_durOf _)
    have ih := alaapLoop_length_le pick target (i + 1) (cur + durOf (pick i).2)
    simp only [List.length_cons]
    omega
  · rw [alaapLoop_neg pick target i cur h]
    simp
termination_by (⌈(target - cur) * 2⌉).toNat
decreasing_by exact alaap_measure_lt target cur _ h (half_le_durOf _)

/-! Membership lemmas for the assembly helpers. -/

theorem mem_withOffsets (l : List MEvent) (c : ℚ) (x : ℚ × MEvent)
    (hx : x ∈ withOffsets c l) : x.2 ∈ l := by
  induction l generalizing c with
  | nil => simp [withOffsets] at hx
  | cons e rest ih =>
    rw [withOffsets] at hx
    rcases List.mem_cons.mp hx with hx | hx
    · subst hx
      exact List.mem_cons_self _ _
    · exact List.mem_cons_of_mem _ (ih _ hx)

theorem mem_place (off : ℚ) (evs : List (ℚ × MEvent)) (x : ℚ × MEvent)
    (hx : x ∈ place off evs) : ∃ p ∈ evs, x = (off + p.1, p.2) := by
  simp only [place, List.mem_map] at hx
  rcases hx with ⟨p, hp, hpe⟩
  exact ⟨p, hp, hpe.symm⟩

theorem mem_mergeByOffset :
    ∀ (a b : List (ℚ × MEvent)) (x : ℚ × MEvent),
      x ∈ mergeByOffset a b → x ∈ a ∨ x ∈ b
  | [], b, x, hx => by
    rw [mergeByOffset] at hx
    exact Or.inr hx
  | e :: a, [], x, hx => by
    simp only [mergeByOffset] at hx
    exact Or.inl hx
  | e :: a, f :: b, x, hx => by
    rw [mergeByOffset] at hx
    by_cases h : e.1 ≤ f.1
    · rw [if_pos h] at hx
      rcases List.mem_cons.mp hx with hx | hx
      · exact Or.inl (hx ▸ List.mem_cons_self _ _)
      · rcases mem_mergeByOffset a (f :: b) x hx with h1 | h1
        · exact Or.inl (List.mem_cons_of_mem _ h1)
        · exact Or.inr h1
    · rw [if_neg h] at hx
      rcases List.mem_cons.mp hx with hx | hx
      · exact Or.inr (hx ▸ List.mem_cons_self _ _)
      · rcases mem_mergeByOffset (e :: a) b x hx with h1 | h1
        · exact Or.inl h1
        · exact Or.inr (List.mem_cons_of_mem _ h1)
termination_by a b _ _ => a.length + b.length
decreasing_by all_goals simp +arith

/-- When every offset of the first list is at most every offset of the
second, the sorted merge is plain concatenation. -/
theorem mergeByOffset_of_le (a b : List (ℚ × MEvent))
    (h : ∀ x ∈ a, ∀ y ∈ b, x.1 ≤ y.1) :
    mergeByOffset a b = a ++ b := by
  induction a with
  | nil => rw [mergeByOffset]; simp
  | cons e a ih =>
    cases b with
    | nil => simp [mergeByOffset]
    | cons f b =>
      rw [mergeByOffset,
        if_pos (h e (List.mem_cons_self _ _) f (List.mem_cons_self _ _))]
      have := ih (fun x hx y hy => h x (List.mem_cons_of_mem _ hx) y hy)
      rw [this]
      simp

/-- Every timed event the drum loop emits comes from placing the events of
one of the iterated measures at some offset. -/
theorem mem_drumLoop (l : List StreamElem) (off : ℚ) (x : ℚ × MEvent)
    (hx : x ∈ drumLoop off l) :
    ∃ m : MMeasure, .measureElem m ∈ l ∧ ∃ o : ℚ, x ∈ place o m.events := by
  induction l generalizing off with
  | nil => simp [drumLoop] at hx
  | cons el rest ih =>
    cases el with
    | instrumentMarker ins =>
      rw [drumLoop] at hx
      obtain ⟨m, hm, o, ho⟩ := ih _ hx
      exact ⟨m, List.mem_cons_of_mem _ hm, o, ho⟩
    | measureElem m' =>
      rw [drumLoop] at hx
      rcases List.mem_append.mp hx with h | h
      · exact ⟨m', List.mem_cons_self _ _, off, h⟩
      · obtain ⟨m, hm, o, ho⟩ := ih _ h
        exact ⟨m, List.mem_cons_of_mem _ hm, o, ho⟩

/-- Unrolling the drum loop over replicated measures places copy `k` at
`off + 4 * k`. -/
theorem drumLoop_replicate (m : MMeasure) (n : ℕ) (off : ℚ) :
    drumLoop off (List.replicate n (.measureElem m)) =
      (List.range n).flatMap (fun k => place (off + 4 * (k : ℚ)) m.events) := by
  induction n generalizing off with
  | zero => simp [drumLoop]
  | succ n ih =>
    rw [List.replicate_succ, drumLoop, ih, List.range_succ_eq_map]
    rw [List.flatMap_cons, List.flatMap_map]
    have hfun : (fun k : ℕ => place (off + 4 * ((k : ℚ) + 1)) m.events) =
        (fun k : ℕ => place (off + 4 + 4 * (k : ℚ)) m.events) := by
      funext k
      ring_nf
    simp only [Function.comp, Nat.cast_succ]
    rw [hfun]
    norm_num

/-- Dropping the offsets of an appended list recovers the appended events. -/
theorem withOffsets_map_snd (c : ℚ) (l : List MEvent) :
    (withOffsets c l).map Prod.snd = l := by
  induction l generalizing c with
  | nil => rfl
  | cons e rest ih => simp [withOffsets, ih]

/-- The total duration of an appended list is the sum of the appended
events' durations. -/
theorem sumDur_withOffsets (c : ℚ) (l : List MEvent) :
    sumDur (withOffsets c l) = (l.map MEvent.qLen).sum := by
  have h : (withOffsets c l).map (fun e => e.2.qLen) =
      ((withOffsets c l).map Prod.snd).map MEvent.qLen := by
    simp [List.map_map]
  rw [sumDur, h, withOffsets_map_snd]

/-! Duration bounds per fragment, leading to a bound across the whole score. -/

theorem durChoices_le_four : ∀ q ∈ durChoices, q ≤ 4 := by
  intro q hq
  simp [durChoices] at hq
  rcases hq with rfl | rfl | rfl | rfl <;> norm_num

theorem fracture_qLen_le : ∀ p ∈ generate_fracture_texture.events, p.2.qLen ≤ 4 := by
  intro p hp
  have h2 := mem_withOffsets _ _ _ hp
  simp only [List.mem_map] at h2
  obtain ⟨i, _, hi⟩ := h2
  rw [← hi]
  norm_num [fractureChord]

theorem riff_qLen_le : ∀ p ∈ generate_rock_riff.events, p.2.qLen ≤ 4 := by
  intro p hp
  have h2 := mem_withOffsets _ _ _ hp
  simp only [List.mem_flatten, List.mem_replicate] at h2
  obtain ⟨bar, ⟨_, hbar⟩, hmem⟩ := h2
  subst hbar
  simp [riffBar, make_power_chord] at hmem
  rcases hmem with h | h | h | h <;> norm_num [h]

theorem keherwa_qLen_le : ∀ p ∈ create_keherwa_cycle.events, p.2.qLen ≤ 4 := by
  intro p hp
  have h2 := mem_withOffsets _ _ _ hp
  simp only [List.mem_map, pattern_bols] at h2
  rcases h2 with ⟨q, hq, hqe⟩
  rw [← hqe]
  simp at hq
  rcases hq with hq | hq | hq | hq | hq | hq | hq | hq <;>
    norm_num [hq, strokeEvent, long_beat, short_beat]

theorem synthesis_qLen (pickS : ℕ → Fin 7) :
    ∀ e ∈ (generate_synthesis_melody pickS).events, e.2.qLen = 1 / 2 := by
  intro e he
  have h2 := mem_withOffsets _ _ _ he
  simp only [List.mem_map] at h2
  obtain ⟨k, _, hk⟩ := h2
  rw [← hk]

theorem alaap_events_qLen_le (pickA : ℕ → Fin 7 × Fin 4) :
    ∀ e ∈ (generate_alaap pickA 32).events, e.2.qLen ≤ 4 := by
  intro e he
  exact durChoices_le_four _ (alaapLoop_qLen_mem pickA 32 0 0 e he)

/-- No event anywhere in the assembled score lasts longer than a bar. -/
theorem scoreEvents_qLen_le (pickA : ℕ → Fin 7 × Fin 4) (pickS : ℕ → Fin 7) :
    ∀ e ∈ scoreEvents (build_sahar_e_nau pickA pickS), e.2.qLen ≤ 4 := by
  intro e he
  simp only [scoreEvents, build_sahar_e_nau, List.map_cons, List.map_nil,
    List.flatten_cons, List.flatten_nil, List.append_nil, List.mem_append] at he
  rcases he with h | h | h | h
  · rcases mem_mergeByOffset _ _ _ h with h1 | h1
    · obtain ⟨p, hp, he2⟩ := mem_place _ _ _ h1
      subst he2
      exact alaap_events_qLen_le pickA p hp
    · obtain ⟨p, hp, he2⟩ := mem_place _ _ _ h1
      subst he2
      have hq := synthesis_qLen pickS p hp
      show p.2.qLen ≤ 4
      rw [hq]
      norm_num
  · obtain ⟨p, hp, he2⟩ := mem_place _ _ _ h
    subst he2
    exact fracture_qLen_le p hp
  · obtain ⟨p, hp, he2⟩ := mem_place _ _ _ h
    subst he2
    exact riff_qLen_le p hp
  · obtain ⟨m, hm, o, ho⟩ := mem_drumLoop _ _ _ h
    simp only [drums_part_elements, List.mem_cons, List.mem_replicate,
      reduceCtorEq, StreamElem.measureElem.injEq, false_or] at hm
    obtain ⟨-, hm⟩ := hm
    subst hm
    obtain ⟨p, hp, he2⟩ := mem_place _ _ _ ho
    subst he2
    exact keherwa_qLen_le p hp

/-- Dropping the offsets commutes with reading any field of the events. -/
theorem withOffsets_map_proj {β : Type} (f : MEvent → β) (c : ℚ) (l : List MEvent) :
    (withOffsets c l).map (fun e => f e.2) = l.map f := by
  have h : (withOffsets c l).map (fun e => f e.2) =
      ((withOffsets c l).map Prod.snd).map f := by
    simp [List.map_map]
  rw [h, withOffsets_map_snd]

/-! The claims. -/

/-- C4: for every root pitch, `get_yaman_scale` returns an ordered sequence
of exactly 7 pitches whose interval pattern from the root is major 2nd,
major 3rd, augmented 4th, perfect 5th, major 6th, major 7th, and the
augmented-fourth entry carries a +10-cent detuning while no other entry
carries any detuning. -/
theorem yaman_scale_spec (root : ℤ) :
    (get_yaman_scale root).length = 7 ∧
    (get_yaman_scale root).map (fun p => p.semis - root) = [0, 2, 4, 6, 7, 9, 11] ∧
    (get_yaman_scale root).map Pitch.microtone = [0, 0, 0, 10, 0, 0, 0] := by
  refine ⟨rfl, ?_, ?_⟩ <;>
    simp [get_yaman_scale, yamanIntervals, transpose, IntervalName.semitones]

/-- C1: for every nonnegative target duration D, the alaap's event
durations sum to at least D and strictly less than D + 2 (the largest
member of the duration set), and every event keeps a drawn duration whole
(it is one of the four choices, so the final event is never truncated). -/
theorem alaap_duration_spec (pick : ℕ → Fin 7 × Fin 4) (D : ℚ) (hD : 0 ≤ D) :
    D ≤ sumDur (generate_alaap pick D).events ∧
    sumDur (generate_alaap pick D).events < D + 2 ∧
    ∀ e ∈ (generate_alaap pick D).events, e.2.qLen ∈ durChoices := by
  refine ⟨?_, ?_, ?_⟩
  · simpa using alaapLoop_sum_ge pick D 0 0
  · simpa using alaapLoop_sum_lt pick D 0 0 (by linarith)
  · exact alaapLoop_qLen_mem pick D 0 0

/-- Witness for C1: the bounds hold at the constant draw stream and target 3. -/
theorem alaap_duration_spec_witness :
    (0 : ℚ) ≤ 3 ∧
      (3 ≤ sumDur (generate_alaap constPickA 3).events ∧
       sumDur (generate_alaap constPickA 3).events < 3 + 2 ∧
       ∀ e ∈ (generate_alaap constPickA 3).events, e.2.qLen ∈ durChoices) :=
  ⟨by norm_num, alaap_duration_spec constPickA 3 (by norm_num)⟩

/-- C8: `generate_alaap` terminates for every target: every drawn duration
is at least 1/2, so the loop emits at most `⌈D * 2⌉` events before the
cursor reaches any finite target. -/
theorem alaap_terminates_spec (pick : ℕ → Fin 7 × Fin 4) (D : ℚ) :
    (∀ j : Fin 4, (1 : ℚ) / 2 ≤ durOf j) ∧
    (generate_alaap pick D).events.length ≤ (⌈D * 2⌉).toNat := by
  refine ⟨half_le_durOf, ?_⟩
  simpa using alaapLoop_length_le pick D 0 0

/-- C10: for every non-positive target, the alaap loop never runs: the
returned part holds only the sitar marker, no events, total duration 0. -/
theorem alaap_nonpositive_spec (pick : ℕ → Fin 7 × Fin 4) (D : ℚ) (hD : D ≤ 0) :
    (generate_alaap pick D).events = [] ∧
    (generate_alaap pick D).instrument = Instrument.sitar ∧
    sumDur (generate_alaap pick D).events = 0 := by
  have h : ¬ (0 : ℚ) < D := by linarith
  have he : (generate_alaap pick D).events = [] := alaapLoop_neg pick D 0 0 h
  refine ⟨he, rfl, ?_⟩
  rw [he]
  rfl

/-- Witness for C10 at target -1. -/
theorem alaap_nonpositive_spec_witness :
    (-1 : ℚ) ≤ 0 ∧
      ((generate_alaap constPickA (-1)).events = [] ∧
       (generate_alaap constPickA (-1)).instrument = Instrument.sitar ∧
       sumDur (generate_alaap constPickA (-1)).events = 0) :=
  ⟨by norm_num, alaap_nonpositive_spec constPickA (-1) (by norm_num)⟩

/-- C2: one keherwa cycle's durations sum to exactly 4 beats, the durations
alternate 2/3 and 1/3 with each adjacent pair summing to one full beat, and
every stroke carries the 3-against-2 tuplet marker. -/
theorem keherwa_cycle_spec :
    sumDur create_keherwa_cycle.events = 4 ∧
    create_keherwa_cycle.events.map (fun e => e.2.qLen) =
      [2/3, 1/3, 2/3, 1/3, 2/3, 1/3, 2/3, 1/3] ∧
    pairSums (create_keherwa_cycle.events.map (fun e => e.2.qLen)) = [1, 1, 1, 1] ∧
    create_keherwa_cycle.events.map (fun e => e.2.tuplet) =
      List.replicate 8 (some (3, 2)) := by
  have hev : create_keherwa_cycle.events =
      withOffsets 0 (pattern_bols.map (fun p => strokeEvent p.1 p.2)) := rfl
  have hq : create_keherwa_cycle.events.map (fun e => e.2.qLen) =
      [2/3, 1/3, 2/3, 1/3, 2/3, 1/3, 2/3, 1/3] := by
    rw [hev, withOffsets_map_proj]
    simp [pattern_bols, strokeEvent, long_beat, short_beat]
  refine ⟨?_, hq, ?_, ?_⟩
  · rw [hev, sumDur_withOffsets]
    simp [pattern_bols, strokeEvent, long_beat, short_beat]
    norm_num
  · rw [hq]
    norm_num [pairSums]
  · rw [hev, withOffsets_map_proj]
    simp [pattern_bols, strokeEvent]

/-- C6: the fracture texture is exactly 16 two-pitch chord events of fixed
duration whose velocities rise linearly from the floor 60 in steps of 3,
form a non-decreasing sequence, and end uncapped at 60 + 15 * 3 = 105. -/
theorem fracture_texture_spec :
    generate_fracture_texture.events.length = 16 ∧
    generate_fracture_texture.events.map (fun e => e.2.pitches) =
      List.replicate 16 [55, 56] ∧
    generate_fracture_texture.events.map (fun e => e.2.qLen) =
      List.replicate 16 2 ∧
    generate_fracture_texture.events.map (fun e => (e.2.velocity).getD 0) =
      [60, 63, 66, 69, 72, 75, 78, 81, 84, 87, 90, 93, 96, 99, 102, 105] ∧
    List.Chain' (fun a b => a ≤ b)
      (generate_fracture_texture.events.map (fun e => (e.2.velocity).getD 0)) := by
  have hev : generate_fracture_texture.events =
      withOffsets 0 ((List.range 16).map fractureChord) := rfl
  have hv : generate_fracture_texture.events.map (fun e => (e.2.velocity).getD 0) =
      [60, 63, 66, 69, 72, 75, 78, 81, 84, 87, 90, 93, 96, 99, 102, 105] := by
    rw [hev, withOffsets_map_proj (fun m => (m.velocity).getD 0)]
    norm_num [List.range_succ, Function.comp, fractureChord]
  refine ⟨?_, ?_, ?_, hv, ?_⟩
  · rw [hev]
    have := congrArg List.length (withOffsets_map_snd 0 ((List.range 16).map fractureChord))
    simpa using this
  · rw [hev, withOffsets_map_proj]
    simp [Function.comp, fractureChord, List.range_succ]
  · rw [hev, withOffsets_map_proj]
    simp [Function.comp, fractureChord, List.range_succ]
  · rw [hv]
    simp [List.chain'_cons]

/-- C9: the generators that never consult the pseudorandom state — the
fracture texture, the rock riff and the keherwa cycle — contribute
identical event sequences to any two builds, whatever the realized random
draws are; their placed outputs are the last three voices of the score. -/
theorem deterministic_generators_spec (pickA pickA' : ℕ → Fin 7 × Fin 4)
    (pickS pickS' : ℕ → Fin 7) :
    (build_sahar_e_nau pickA pickS).parts.drop 1 =
      (build_sahar_e_nau pickA' pickS').parts.drop 1 ∧
    ((build_sahar_e_nau pickA pickS).parts.map MPart.events).drop 1 =
      [place 32 generate_fracture_texture.events,
       place 64 generate_rock_riff.events,
       master_drums_events] ∧
    master_drums_events =
      drumLoop 64 (.instrumentMarker .unpitchedPercussion ::
        List.replicate 16 (.measureElem create_keherwa_cycle)) :=
  ⟨rfl, rfl, rfl⟩

/-- C7: the built score carries exactly two global tempo markers of
different values: 72 BPM at offset 0 and 108 BPM — 72 scaled by the fixed
ratio 3/2 — at offset 64; they sit on the score, not on any voice part. -/
theorem tempo_markers_spec (pickA : ℕ → Fin 7 × Fin 4) (pickS : ℕ → Fin 7) :
    (build_sahar_e_nau pickA pickS).tempos = [(0, 72), (64, 108)] ∧
    (108 : ℚ) = 72 * (3 / 2) ∧ (72 : ℕ) < 108 :=
  ⟨rfl, by norm_num, by norm_num⟩

/-- The eight keherwa events with their offsets, fully evaluated. -/
theorem keherwa_events_explicit :
    create_keherwa_cycle.events =
      [(0, strokeEvent .Dha long_beat), (2 / 3, strokeEvent .Ge short_beat),
       (1, strokeEvent .Na long_beat), (5 / 3, strokeEvent .Tin short_beat),
       (2, strokeEvent .Na long_beat), (8 / 3, strokeEvent .Ka short_beat),
       (3, strokeEvent .Dhin long_beat), (11 / 3, strokeEvent .Na short_beat)] := by
  norm_num [create_keherwa_cycle, pattern_bols, withOffsets, strokeEvent,
    long_beat, short_beat]

/-- The drum voice, characterised: the placeholder consumes the loop's
starting offset 64, so measure `k` is placed at `68 + 4 * k`. -/
theorem master_drums_events_eq :
    master_drums_events =
      (List.range 16).flatMap
        (fun k => place (68 + 4 * (k : ℚ)) create_keherwa_cycle.events) := by
  have h1 : master_drums_events =
      drumLoop (64 + 4) (List.replicate 16 (.measureElem create_keherwa_cycle)) := rfl
  rw [h1, drumLoop_replicate]
  norm_num

/-- C3 (amended): every placement offset of the assembler is a precomputed
constant, derived from nominal section durations and never from generated
content — alaap at 0, fracture at 32, riff at 64, synthesis at
32 + 32 + 64 = 128 — but the drum loop's constant starting offset 64 is
consumed by the iterated instrument placeholder, so the sixteen drum
measures land at the constant offsets 68, 72, ..., 128; and whenever two
fragments are placed at offsets O1 < O2 with O2 at least O1 plus the first
fragment's nominal length, the merged voice timeline is the plain
concatenation of the placed fragments, preserving each fragment's internal
relative event ordering. -/
theorem assembler_offsets_spec :
    synthesis_start_offset = 128 ∧
    (∀ (pickA : ℕ → Fin 7 × Fin 4) (pickS : ℕ → Fin 7),
      (build_sahar_e_nau pickA pickS).parts.map MPart.events =
        [mergeByOffset (place 0 (generate_alaap pickA 32).events)
           (place synthesis_start_offset (generate_synthesis_melody pickS).events),
         place 32 generate_fracture_texture.events,
         place 64 generate_rock_riff.events,
         master_drums_events]) ∧
    master_drums_events =
      (List.range 16).flatMap
        (fun k => place (68 + 4 * (k : ℚ)) create_keherwa_cycle.events) ∧
    (∀ (O1 O2 L1 : ℚ) (f1 f2 : List (ℚ × MEvent)),
      O1 < O2 → O1 + L1 ≤ O2 →
      (∀ e ∈ f1, e.1 < L1) → (∀ e ∈ f2, 0 ≤ e.1) →
      mergeByOffset (place O1 f1) (place O2 f2) = place O1 f1 ++ place O2 f2) := by
  refine ⟨by norm_num [synthesis_start_offset], fun pickA pickS => rfl,
    master_drums_events_eq, ?_⟩
  intro O1 O2 L1 f1 f2 h12 hsep hf1 hf2
  apply mergeByOffset_of_le
  intro x hx y hy
  obtain ⟨p, hp, hxe⟩ := mem_place _ _ _ hx
  obtain ⟨q, hq, hye⟩ := mem_place _ _ _ hy
  subst hxe
  subst hye
  have h1 := hf1 p hp
  have h2 := hf2 q hq
  show O1 + p.1 ≤ O2 + q.1
  linarith

/-- Witness for C3: the order-preservation clause at two one-event
fragments separated by the first one's nominal length. -/
theorem assembler_offsets_spec_witness :
    mergeByOffset (place 0 [((0 : ℚ), drone_root)]) (place 32 [((0 : ℚ), drone_fifth)]) =
      place 0 [((0 : ℚ), drone_root)] ++ place 32 [((0 : ℚ), drone_fifth)] :=
  assembler_offsets_spec.2.2.2 0 32 32 [((0 : ℚ), drone_root)] [((0 : ℚ), drone_fifth)]
    (by norm_num) (by norm_num)
    (by intro e he; simp at he; rw [he]; norm_num)
    (by intro e he; simp at he; rw [he])

/-- Counterexample to C3 as stated: in a concrete build, the drum voice is
not the sixteen keherwa measures placed at 64 + 4k — its first event sits
at offset 68, because the iterated instrument placeholder consumed the
constant 64. -/
theorem drums_not_at_64 :
    ((build_sahar_e_nau constPickA constPickS).parts.map MPart.events).getD 3 [] =
      master_drums_events ∧
    master_drums_events.head? = some ((68 : ℚ), strokeEvent .Dha long_beat) ∧
    ¬ master_drums_events =
        (List.range 16).flatMap
          (fun k => place (64 + 4 * (k : ℚ)) create_keherwa_cycle.events) := by
  have h16 : (16 : ℕ) = 15 + 1 := rfl
  have hhead : master_drums_events.head? = some ((68 : ℚ), strokeEvent .Dha long_beat) := by
    rw [master_drums_events_eq, h16, List.range_succ_eq_map, List.flatMap_cons,
      keherwa_events_explicit]
    simp [place]
  refine ⟨rfl, hhead, fun hEq => ?_⟩
  have h2 := congrArg List.head? hEq
  rw [hhead, h16, List.range_succ_eq_map, List.flatMap_cons,
    keherwa_events_explicit] at h2
  simp [place] at h2

/-- C5 (amended): the score builder invokes every fragment generator, but
merges only the alaap, fracture, riff, drum-cycle and synthesis fragments
into the score's voice timelines; the sitar drone part is generated and
then discarded, so neither of its events appears anywhere in the built
score. -/
theorem score_merges_all_but_drone (pickA : ℕ → Fin 7 × Fin 4) (pickS : ℕ → Fin 7) :
    (build_sahar_e_nau pickA pickS).parts.map MPart.events =
      [mergeByOffset (place 0 (generate_alaap pickA 32).events)
         (place synthesis_start_offset (generate_synthesis_melody pickS).events),
       place 32 generate_fracture_texture.events,
       place 64 generate_rock_riff.events,
       master_drums_events] ∧
    ∀ off : ℚ,
      (off, drone_root) ∉ scoreEvents (build_sahar_e_nau pickA pickS) ∧
      (off, drone_fifth) ∉ scoreEvents (build_sahar_e_nau pickA pickS) := by
  refine ⟨rfl, fun off => ⟨fun hmem => ?_, fun hmem => ?_⟩⟩
  · have := scoreEvents_qLen_le pickA pickS _ hmem
    norm_num [drone_root] at this
  · have := scoreEvents_qLen_le pickA pickS _ hmem
    norm_num [drone_fifth] at this

/-- Witness for C5 (amended): the drone root is absent at offset 0 in a
concrete build. -/
theorem score_merges_all_but_drone_witness :
    ((0 : ℚ), drone_root) ∉ scoreEvents (build_sahar_e_nau constPickA constPickS) :=
  ((score_merges_all_but_drone constPickA constPickS).2 0).1

/-- Counterexample to C5 as stated: in a concrete build, no event of the
sitar drone fragment appears at any offset of the built score's voice
timelines. -/
theorem drone_events_missing_from_score :
    ¬ ∃ off : ℚ,
        (off, drone_root) ∈ scoreEvents (build_sahar_e_nau constPickA constPickS) ∨
        (off, drone_fifth) ∈ scoreEvents (build_sahar_e_nau constPickA constPickS) := by
  rintro ⟨off, h | h⟩ <;>
    · have := scoreEvents_qLen_le constPickA constPickS _ h
      norm_num [drone_root, drone_fifth] at this

end Faiz
